import Mathlib

/-!
Shallow embedding of the `gba_test` on-device test harness core: the outcome
ledger (tag array plus append-only message region in EWRAM), the execution
state machine (`Tests`), the read-back iterators, the filtered window, the
module tree walker, and the Rabin-Karp panic-substring matcher.

Memory is modelled byte-addressed: `Mem := Nat → Nat`, each cell holding one
byte value. A `usize` on the GBA is 4 bytes; word reads and writes are
little-endian over 4 consecutive byte cells, exactly as `ptr::write`/`read`
of `usize` behave on the target. Pointers are plain addresses (`Nat`).
Panics are modelled as error values (`Option`/`Except`); on this `no_std`
target a panic never unwinds, so local destructors do not run on a panic
path, and the embedding reflects that.
-/

namespace GbaTest

/-- Top of the EWRAM region used by the ledger (`EWRAM_MAX` in `test.rs`). -/
def EWRAM_MAX : Nat := 0x02040000

/-- Byte-addressed memory: each address holds one byte. -/
abbrev Mem : Type := Nat → Nat

/-- Write one byte (`ptr::write` on a `*mut u8`); the stored value is reduced
mod 256 as on the hardware. -/
def writeByte (m : Mem) (a v : Nat) : Mem :=
  fun x => if x = a then v % 256 else m x

/-- Copy a run of bytes starting at `a` (`ptr::copy` in `write_str`). -/
def writeBytes (m : Mem) (a : Nat) : List Nat → Mem
  | [] => m
  | b :: bs => writeBytes (writeByte m a b) (a + 1) bs

/-- Read a run of `n` bytes starting at `a` (`slice::from_raw_parts`). -/
def readBytes (m : Mem) (a : Nat) : Nat → List Nat
  | 0 => []
  | n + 1 => m a :: readBytes m (a + 1) n

/-- Write a 4-byte little-endian word (`ptr::write` of a `usize` on the GBA). -/
def writeWord (m : Mem) (a v : Nat) : Mem :=
  writeByte (writeByte (writeByte (writeByte m a v)
    (a + 1) (v / 256)) (a + 2) (v / 256 ^ 2)) (a + 3) (v / 256 ^ 3)

/-- Read a 4-byte little-endian word (`ptr::read` of a `usize` on the GBA). -/
def readWord (m : Mem) (a : Nat) : Nat :=
  m a + 256 * m (a + 1) + 256 ^ 2 * m (a + 2) + 256 ^ 3 * m (a + 3)

/-- `Align4::align_forward` from `alignment.rs`: next 4-byte-aligned address
(or the address itself when already aligned). -/
def alignForward (a : Nat) : Nat := a + (4 - a % 4) % 4

/-- `Align4::align_backward` from `alignment.rs`: previous 4-byte-aligned
address (or the address itself when already aligned). -/
def alignBackward (a : Nat) : Nat := a - a % 4

theorem alignForward_dvd (a : Nat) : 4 ∣ alignForward a := by
  unfold alignForward; omega

theorem alignForward_of_dvd {a : Nat} (h : 4 ∣ a) : alignForward a = a := by
  unfold alignForward; omega

theorem le_alignForward (a : Nat) : a ≤ alignForward a := by
  unfold alignForward; omega

theorem alignForward_lt (a : Nat) : alignForward a < a + 4 := by
  unfold alignForward; omega

theorem alignForward_mono {a b : Nat} (h : a ≤ b) : alignForward a ≤ alignForward b := by
  unfold alignForward; omega

theorem writeByte_apply (m : Mem) (a v x : Nat) :
    writeByte m a v x = if x = a then v % 256 else m x := rfl

theorem writeByte_apply_ne (m : Mem) {a v x : Nat} (h : x ≠ a) :
    writeByte m a v x = m x := by
  simp [writeByte, h]

theorem writeBytes_apply_out (m : Mem) (bs : List Nat) (a : Nat) {x : Nat}
    (h : x < a ∨ a + bs.length ≤ x) : writeBytes m a bs x = m x := by
  induction bs generalizing m a with
  | nil => rfl
  | cons b bs ih =>
    simp only [writeBytes]
    rw [ih _ _ (by simp at h ⊢; omega), writeByte_apply_ne _ (by simp at h; omega)]

theorem writeWord_apply_out (m : Mem) (a v : Nat) {x : Nat}
    (h : x < a ∨ a + 4 ≤ x) : writeWord m a v x = m x := by
  unfold writeWord
  rw [writeByte_apply_ne _ (by omega), writeByte_apply_ne _ (by omega),
    writeByte_apply_ne _ (by omega), writeByte_apply_ne _ (by omega)]

theorem readWord_congr {m₁ m₂ : Mem} (a : Nat)
    (h : ∀ i, i < 4 → m₁ (a + i) = m₂ (a + i)) : readWord m₁ a = readWord m₂ a := by
  have h0 := h 0 (by omega)
  have h1 := h 1 (by omega)
  have h2 := h 2 (by omega)
  have h3 := h 3 (by omega)
  simp only [Nat.add_zero] at h0
  unfold readWord
  rw [h0, h1, h2, h3]

theorem readBytes_congr {m₁ m₂ : Mem} (a n : Nat)
    (h : ∀ i, i < n → m₁ (a + i) = m₂ (a + i)) : readBytes m₁ a n = readBytes m₂ a n := by
  induction n generalizing a with
  | zero => rfl
  | succ n ih =>
    simp only [readBytes]
    have h0 := h 0 (by omega)
    simp only [Nat.add_zero] at h0
    rw [h0, ih (a + 1) (fun i hi => by
      have := h (1 + i) (by omega)
      rwa [show a + (1 + i) = a + 1 + i by omega] at this)]

theorem readWord_writeWord (m : Mem) (a v : Nat) (h : v < 2 ^ 32) :
    readWord (writeWord m a v) a = v := by
  unfold readWord writeWord writeByte
  norm_num at h ⊢
  omega

theorem readBytes_writeBytes (m : Mem) (a : Nat) (bs : List Nat)
    (h : ∀ b ∈ bs, b < 256) : readBytes (writeBytes m a bs) a bs.length = bs := by
  induction bs generalizing m a with
  | nil => rfl
  | cons b bs ih =>
    simp only [List.length_cons, readBytes, writeBytes]
    congr 1
    · rw [writeBytes_apply_out _ _ _ (Or.inl (by omega)), writeByte_apply, if_pos rfl,
        Nat.mod_eq_of_lt (h b (by simp))]
    · exact ih _ _ (fun b hb => h b (by simp [hb]))

/-! ## Test cases and outcomes (`test_case.rs`, `test.rs`) -/

/-- `Ignore` from `test_case.rs`. -/
inductive Ignore where
  | No : Ignore
  | Yes : Ignore
  | YesWithMessage : String → Ignore
deriving DecidableEq, Repr

/-- `ShouldPanic` from `test_case.rs`. The expected substring is modelled as
its UTF-8 byte sequence. -/
inductive ShouldPanic where
  | No : ShouldPanic
  | Yes : ShouldPanic
  | YesWithMessage : List Nat → ShouldPanic
deriving DecidableEq, Repr

/-- The data of a `TestCase` trait object (`test_case.rs`). The runnable body
(`run`) is executed by the runner but plays no role in the ledger, iterator,
window or walker claims, so it is not part of the model. -/
structure TestCase where
  name : String
  modules : List String
  ignore : Ignore
  shouldPanic : ShouldPanic
deriving DecidableEq, Repr

/-- `Outcome<Data>` from `test.rs`. -/
inductive Outcome (Data : Type) where
  | Passed : Outcome Data
  | Failed : Data → Outcome Data
  | Ignored : Outcome Data
deriving DecidableEq, Repr

/-- `OutcomeVariant` from `test.rs` (`repr(u8)`, no payload). -/
inductive OutcomeVariant where
  | Passed : OutcomeVariant
  | Failed : OutcomeVariant
  | Ignored : OutcomeVariant
deriving DecidableEq, Repr

/-- `From<&Outcome<Data>> for OutcomeVariant`. -/
def Outcome.variant {Data : Type} : Outcome Data → OutcomeVariant
  | .Passed => .Passed
  | .Failed _ => .Failed
  | .Ignored => .Ignored

/-- The `repr(u8)` discriminant of an `OutcomeVariant` (declaration order:
`Passed = 0`, `Failed = 1`, `Ignored = 2`). -/
def OutcomeVariant.toByte : OutcomeVariant → Nat
  | .Passed => 0
  | .Failed => 1
  | .Ignored => 2

/-- Reading an `OutcomeVariant` back from its stored byte. Reading a byte
that is not a valid discriminant is undefined behaviour in the source; the
model maps such bytes to `Passed` arbitrarily (they are never read on the
verified paths). -/
def decodeVariant : Nat → OutcomeVariant
  | 0 => .Passed
  | 1 => .Failed
  | 2 => .Ignored
  | _ + 3 => .Passed

theorem decodeVariant_toByte (v : OutcomeVariant) :
    decodeVariant v.toByte = v := by cases v <;> rfl

/-! ## The scoped message writer (`ErrorMessage` in `test.rs`)

`ErrorMessage::new` places the cursor 4 bytes past `start`; `write_str`
checks `cursor + len + 4 > EWRAM_MAX`, copies the bytes and advances the
cursor; `Drop` computes the length, writes the 4-byte header at `start`,
aligns the cursor forward and writes the matching 4-byte footer, then moves
`start` to just past the footer. `writeRecord` is `new` + one `write_str`
carrying the whole formatted message + `Drop`; chunked `Display` output
reaches the same final state because `write_str` is a plain byte copy and
the binding capacity check is the one on the final cursor. On the failure
path `write_str` reports `fmt::Error`, `complete_test` panics, and — the
panic handler never returning to this frame on the `no_std` target — `Drop`
does not run, which `none` models. -/

/-- One record write through the scoped writer: returns the new memory and
the new append cursor (one word past the footer), or `none` when the
capacity check fails (in which case nothing is written and the writer is
never finalized). -/
def writeRecord (m : Mem) (start : Nat) (bs : List Nat) : Option (Mem × Nat) :=
  if start + 4 + bs.length + 4 > EWRAM_MAX then none
  else
    let m₁ := writeBytes m (start + 4) bs
    let cursor := start + 4 + bs.length
    let length := cursor - (start + 4)
    let m₂ := writeWord m₁ start length
    let c₂ := alignForward cursor
    let m₃ := writeWord m₂ c₂ length
    some (m₃, c₂ + 4)

/-- `Window::next_error_message` from `test.rs`: forward decode of one
record. Returns the message bytes and the advanced pointer. -/
def nextErrorMessage (m : Mem) (e : Nat) : List Nat × Nat :=
  let length := readWord m e
  let bytes := readBytes m (e + 4) length
  (bytes, alignForward (e + 4 + length + 4))

/-- `Window::prev_error_message` from `test.rs`: backward decode of one
record, starting from the pointer one word past its footer. Returns the
message bytes and the retreated pointer. -/
def prevErrorMessage (m : Mem) (e : Nat) : List Nat × Nat :=
  let lengthAddr := e - 4
  let length := readWord m lengthAddr
  let bytesStart := lengthAddr - length
  let bytes := readBytes m bytesStart length
  (bytes, alignBackward (bytesStart - 4))

/-! ## The execution state machine (`Tests` in `test.rs`)

Failure messages are `Display` values in the source; the model carries the
byte sequence the value formats to. Each `panic!` in the source is an error
value here; `noSpace` carries the memory at the moment of the panic (the
tag byte is already written, the record is not, and the scoped writer is
never finalized because the panic does not unwind). -/

inductive TestsPanic where
  | notCompleted : TestsPanic
  | notExecuting : TestsPanic
  | outOfMemory : TestsPanic
  | noSpace : Mem → TestsPanic
  | notFinished : TestsPanic

/-- The `Tests` struct from `test.rs`: `index`, the borrowed test list,
`waiting_for_completion`, the tag-array cursor and the message-region
cursor, together with the EWRAM bytes both cursors point into. -/
structure Tests where
  index : Nat
  tests : List TestCase
  waiting : Bool
  outcomes : Nat
  data : Nat
  mem : Mem

/-- `Tests::new`: the tag array starts at `data`, one byte per test; the
message region starts at the next 4-byte-aligned address; construction
panics when that address is above `EWRAM_MAX`. -/
def Tests.new (tests : List TestCase) (data : Nat) (m : Mem) : Except TestsPanic Tests :=
  let unsizedData := alignForward (data + tests.length)
  if unsizedData > EWRAM_MAX then .error .outOfMemory
  else .ok { index := 0, tests := tests, waiting := false,
             outcomes := data, data := unsizedData, mem := m }

/-- `Tests::start_test`: panics when a previous test is still waiting for
completion; otherwise returns the test at `index` (or `none` when all tests
are done) and flags `waiting_for_completion`. -/
def Tests.startTest (s : Tests) : Except TestsPanic (Option TestCase × Tests) :=
  if s.waiting then .error .notCompleted
  else match s.tests[s.index]? with
    | some t => .ok (some t, { s with waiting := true })
    | none => .ok (none, s)

/-- `Tests::current_test`: the test in flight, if any. -/
def Tests.currentTest (s : Tests) : Option TestCase :=
  if s.waiting then s.tests[s.index]? else none

/-- `Tests::complete_test`: panics when no test is executing; writes the tag
byte and advances the tag cursor; for `Failed` serializes the message
through the scoped writer (panicking, without finalization, when the region
is full); advances `index`. -/
def Tests.completeTest (s : Tests) (outcome : Outcome (List Nat)) : Except TestsPanic Tests :=
  if s.waiting then
    let m₁ := writeByte s.mem s.outcomes outcome.variant.toByte
    let outcomes₁ := s.outcomes + 1
    match outcome with
    | .Failed data =>
      match writeRecord m₁ s.data data with
      | none => .error (.noSpace m₁)
      | some (m₂, data₂) =>
        .ok { s with waiting := false, mem := m₂, outcomes := outcomes₁,
                     data := data₂, index := s.index + 1 }
    | _ => .ok { s with waiting := false, mem := m₁, outcomes := outcomes₁,
                        index := s.index + 1 }
  else .error .notExecuting

/-- `TestOutcomes` from `test.rs`: the completed ledger handed to the UI. -/
structure TestOutcomes where
  tests : List TestCase
  outcomes : Nat
  data : Nat
  mem : Mem

/-- `Tests::outcomes`: panics while tests remain; otherwise rewinds the tag
cursor by `tests.len()` and aligns it forward to locate the message region.
(Named `testOutcomes` here only because `outcomes` is already the field.) -/
def Tests.testOutcomes (s : Tests) : Except TestsPanic TestOutcomes :=
  if s.index < s.tests.length then .error .notFinished
  else .ok { tests := s.tests, outcomes := s.outcomes - s.tests.length,
             data := alignForward s.outcomes, mem := s.mem }

/-- `TestOutcomesIter::next`, iterated to exhaustion: replays one tag per
test in declaration order; for `Failed` decodes one forward record
(`length` header, `length` bytes, advance by `length + 8` then re-align). -/
def iterOutcomes (m : Mem) : List TestCase → Nat → Nat → List (TestCase × Outcome (List Nat))
  | [], _, _ => []
  | t :: rest, op, dp =>
    match decodeVariant (m op) with
    | .Passed => (t, .Passed) :: iterOutcomes m rest (op + 1) dp
    | .Ignored => (t, .Ignored) :: iterOutcomes m rest (op + 1) dp
    | .Failed =>
      let length := readWord m dp
      let bytes := readBytes m (dp + 4) length
      (t, .Failed bytes) :: iterOutcomes m rest (op + 1) (alignForward (dp + length + 8))

/-- `TestOutcomes::iter` as the full list it yields. -/
def TestOutcomes.iterList (t : TestOutcomes) : List (TestCase × Outcome (List Nat)) :=
  iterOutcomes t.mem t.tests t.outcomes t.data

/-- The runner loop restricted to the ledger: one `start_test` and one
`complete_test` per supplied outcome. -/
def runTests : Tests → List (Outcome (List Nat)) → Except TestsPanic Tests
  | s, [] => .ok s
  | s, o :: os =>
    match s.startTest with
    | .error e => .error e
    | .ok r =>
      match r.2.completeTest o with
      | .error e => .error e
      | .ok s₂ => runTests s₂ os

/-- End-to-end: construct the ledger, run every test to completion, then
read the outcomes back (`none` when any step panics). -/
def runAndRead (tests : List TestCase) (data : Nat) (m : Mem)
    (os : List (Outcome (List Nat))) : Option (List (TestCase × Outcome (List Nat))) :=
  match Tests.new tests data m with
  | .error _ => none
  | .ok s₀ =>
    match runTests s₀ os with
    | .error _ => none
    | .ok sF =>
      match sF.testOutcomes with
      | .error _ => none
      | .ok t => some t.iterList

/-- The messages of the `Failed` outcomes, in order: one message record is
appended to the message region per `Failed` `complete_test` call. -/
def failedMessages (os : List (Outcome (List Nat))) : List (List Nat) :=
  os.filterMap fun o => match o with | .Failed d => some d | _ => none

/-- Whether an outcome is `Failed` (the predicate the runner's exit-code
computation and the `Failed` filter both use). -/
def isFailed {Data : Type} : Outcome Data → Bool
  | .Failed _ => true
  | _ => false

/-- The exit code the runner reports via `report_result` (`runner.rs`):
`outcomes.iter().any(|(_, outcome)| matches!(outcome, Outcome::Failed(_)))
as usize`. -/
def reportedExitCode (ys : List (TestCase × Outcome (List Nat))) : Nat :=
  (ys.any fun y => isFailed y.2).toNat

/-! ## Record-layout lemmas -/

theorem EWRAM_MAX_lt : EWRAM_MAX < 2 ^ 32 := by norm_num [EWRAM_MAX]

theorem writeRecord_none (m : Mem) (start : Nat) (bs : List Nat)
    (h : start + 4 + bs.length + 4 > EWRAM_MAX) : writeRecord m start bs = none := by
  unfold writeRecord
  rw [if_pos h]

theorem writeRecord_eq {m : Mem} {start : Nat} {bs : List Nat} {m' : Mem} {e : Nat}
    (h : writeRecord m start bs = some (m', e)) :
    start + 4 + bs.length + 4 ≤ EWRAM_MAX ∧
    e = alignForward (start + 4 + bs.length) + 4 ∧
    m' = writeWord (writeWord (writeBytes m (start + 4) bs) start bs.length)
          (alignForward (start + 4 + bs.length)) bs.length := by
  unfold writeRecord at h
  split at h
  · exact absurd h (by simp)
  · next hle =>
    simp only [Option.some.injEq, Prod.mk.injEq, Nat.add_sub_cancel_left] at h
    exact ⟨by omega, h.2.symm, h.1.symm⟩

theorem writeRecord_frame {m : Mem} {start : Nat} {bs : List Nat} {m' : Mem} {e : Nat}
    (h : writeRecord m start bs = some (m', e)) {a : Nat}
    (ha : a < start ∨ e ≤ a) : m' a = m a := by
  obtain ⟨-, he, hm⟩ := writeRecord_eq h
  have hc₂ := le_alignForward (start + 4 + bs.length)
  subst hm he
  rw [writeWord_apply_out _ _ _ (by omega), writeWord_apply_out _ _ _ (by omega),
    writeBytes_apply_out _ _ _ (by omega)]

theorem writeRecord_header {m : Mem} {start : Nat} {bs : List Nat} {m' : Mem} {e : Nat}
    (h : writeRecord m start bs = some (m', e)) : readWord m' start = bs.length := by
  obtain ⟨hle, -, hm⟩ := writeRecord_eq h
  have hc₂ := le_alignForward (start + 4 + bs.length)
  subst hm
  rw [readWord_congr start (fun i hi => writeWord_apply_out _ _ _ (by omega)),
    readWord_writeWord _ _ _ (by have := EWRAM_MAX_lt; omega)]

theorem writeRecord_bytes {m : Mem} {start : Nat} {bs : List Nat} {m' : Mem} {e : Nat}
    (h : writeRecord m start bs = some (m', e)) (hb : ∀ b ∈ bs, b < 256) :
    readBytes m' (start + 4) bs.length = bs := by
  obtain ⟨-, -, hm⟩ := writeRecord_eq h
  have hc₂ := le_alignForward (start + 4 + bs.length)
  subst hm
  rw [readBytes_congr (start + 4) bs.length (fun i hi => by
      rw [writeWord_apply_out _ _ _ (by omega), writeWord_apply_out _ _ _ (by omega)]),
    readBytes_writeBytes _ _ _ hb]

/-- With the append cursor 4-byte aligned, the forward reader's advance
(`byte_add(length + 8)` then `align_forward`) lands exactly on the writer's
new cursor (footer address plus one word). -/
theorem alignForward_advance {d : Nat} (hd : 4 ∣ d) (L : Nat) :
    alignForward (d + L + 8) = alignForward (d + 4 + L) + 4 := by
  unfold alignForward
  omega

/-! ## The C1 run/read-back correspondence -/
theorem startTest_ok {s : Tests} (hw : s.waiting = false) {t : TestCase}
    (ht : s.tests[s.index]? = some t) :
    s.startTest = .ok (some t, { s with waiting := true }) := by
  unfold Tests.startTest
  rw [hw, ht]
  simp

theorem completeTest_passed (s : Tests) (hw : s.waiting = true) :
    s.completeTest .Passed =
      .ok ⟨s.index + 1, s.tests, false, s.outcomes + 1, s.data,
           writeByte s.mem s.outcomes 0⟩ := by
  unfold Tests.completeTest
  rw [if_pos hw]
  rfl

theorem completeTest_ignored (s : Tests) (hw : s.waiting = true) :
    s.completeTest .Ignored =
      .ok ⟨s.index + 1, s.tests, false, s.outcomes + 1, s.data,
           writeByte s.mem s.outcomes 2⟩ := by
  unfold Tests.completeTest
  rw [if_pos hw]
  rfl

theorem completeTest_failed (s : Tests) (hw : s.waiting = true) (bs : List Nat) :
    s.completeTest (.Failed bs) =
      match writeRecord (writeByte s.mem s.outcomes 1) s.data bs with
      | none => .error (.noSpace (writeByte s.mem s.outcomes 1))
      | some (m₂, d₂) =>
        .ok ⟨s.index + 1, s.tests, false, s.outcomes + 1, d₂, m₂⟩ := by
  unfold Tests.completeTest
  rw [if_pos hw]
  rfl

theorem runTests_cons {s : Tests} {o : Outcome (List Nat)} {os : List (Outcome (List Nat))}
    (hw : s.waiting = false) {t : TestCase} (ht : s.tests[s.index]? = some t)
    {s₂ : Tests} (hct : Tests.completeTest { s with waiting := true } o = .ok s₂) :
    runTests s (o :: os) = runTests s₂ os := by
  rw [runTests, startTest_ok hw ht]
  show (match Tests.completeTest { s with waiting := true } o with
        | Except.error err => (Except.error err : Except TestsPanic Tests)
        | Except.ok s₃ => runTests s₃ os) = runTests s₂ os
  rw [hct]

theorem runTests_cons_err {s : Tests} {o : Outcome (List Nat)} {os : List (Outcome (List Nat))}
    (hw : s.waiting = false) {t : TestCase} (ht : s.tests[s.index]? = some t)
    {e : TestsPanic} (hct : Tests.completeTest { s with waiting := true } o = .error e) :
    runTests s (o :: os) = .error e := by
  rw [runTests, startTest_ok hw ht]
  show (match Tests.completeTest { s with waiting := true } o with
        | Except.error err => (Except.error err : Except TestsPanic Tests)
        | Except.ok s₃ => runTests s₃ os) = Except.error e
  rw [hct]

/-- Invariant-carrying induction: running the remaining tests to completion
from any well-placed ledger state leaves a memory whose read-back decodes to
exactly the supplied outcomes, and touches only the tag cells and message
region at or past the current cursors. -/
theorem runTests_decode (os : List (Outcome (List Nat))) :
    ∀ s sF : Tests,
    s.waiting = false →
    os.length = s.tests.length - s.index →
    s.index ≤ s.tests.length →
    4 ∣ s.data →
    s.outcomes + (s.tests.length - s.index) ≤ s.data →
    (∀ msg ∈ failedMessages os, ∀ b ∈ msg, b < 256) →
    runTests s os = .ok sF →
    iterOutcomes sF.mem (s.tests.drop s.index) s.outcomes s.data
        = (s.tests.drop s.index).zip os
    ∧ sF.tests = s.tests
    ∧ sF.index = s.tests.length
    ∧ sF.outcomes = s.outcomes + os.length
    ∧ s.data ≤ sF.data
    ∧ (∀ a, a < s.outcomes → sF.mem a = s.mem a)
    ∧ (∀ a, s.outcomes + os.length ≤ a → a < s.data → sF.mem a = s.mem a) := by
  induction os with
  | nil =>
    intro s sF hwait hlen hile hdvd hbound hmsgs hrun
    simp only [runTests, Except.ok.injEq] at hrun
    subst hrun
    simp only [List.length_nil] at hlen
    rw [List.drop_eq_nil_iff.mpr (by omega)]
    exact ⟨rfl, rfl, by omega, by simp, le_refl _, fun a _ => rfl, fun a _ _ => rfl⟩
  | cons o os ih =>
    intro s sF hwait hlen hile hdvd hbound hmsgs hrun
    simp only [List.length_cons] at hlen
    have hidx : s.index < s.tests.length := by omega
    have ht : s.tests[s.index]? = some s.tests[s.index] := List.getElem?_eq_getElem hidx
    rw [List.drop_eq_getElem_cons hidx]
    have hmsgs' : ∀ msg ∈ failedMessages os, ∀ b ∈ msg, b < 256 := by
      intro msg hmsg
      refine hmsgs msg ?_
      cases o <;> simp [failedMessages] at hmsg ⊢ <;> simp [hmsg]
    cases o with
    | Passed =>
      rw [runTests_cons hwait ht (completeTest_passed _ rfl)] at hrun
      have hrun2 : runTests ⟨s.index + 1, s.tests, false, s.outcomes + 1, s.data,
          writeByte s.mem s.outcomes 0⟩ os = .ok sF := hrun
      obtain ⟨hiter, htests, hindex, hout, hdata, hf₁, hf₂⟩ := ih ⟨s.index + 1, s.tests, false,
          s.outcomes + 1, s.data, writeByte s.mem s.outcomes 0⟩ sF rfl
        (show os.length = s.tests.length - (s.index + 1) by omega)
        (show s.index + 1 ≤ s.tests.length by omega) hdvd
        (show s.outcomes + 1 + (s.tests.length - (s.index + 1)) ≤ s.data by omega)
        hmsgs' hrun2
      replace hiter : iterOutcomes sF.mem (s.tests.drop (s.index + 1)) (s.outcomes + 1) s.data
          = (s.tests.drop (s.index + 1)).zip os := hiter
      replace htests : sF.tests = s.tests := htests
      replace hindex : sF.index = s.tests.length := hindex
      replace hout : sF.outcomes = s.outcomes + 1 + os.length := hout
      replace hdata : s.data ≤ sF.data := hdata
      replace hf₁ : ∀ a, a < s.outcomes + 1 → sF.mem a = writeByte s.mem s.outcomes 0 a := hf₁
      replace hf₂ : ∀ a, s.outcomes + 1 + os.length ≤ a → a < s.data →
          sF.mem a = writeByte s.mem s.outcomes 0 a := hf₂
      have htag : sF.mem s.outcomes = 0 := by
        rw [hf₁ s.outcomes (by omega), writeByte_apply, if_pos rfl]
      refine ⟨?_, htests, hindex, by simp only [List.length_cons]; omega, hdata,
        fun a ha => by rw [hf₁ a (by omega), writeByte_apply_ne _ (by omega)],
        fun a ha₁ ha₂ => by
          simp only [List.length_cons] at ha₁
          rw [hf₂ a (by omega) ha₂, writeByte_apply_ne _ (by omega)]⟩
      simp only [iterOutcomes, htag, decodeVariant, List.zip_cons_cons, List.cons.injEq]
      exact ⟨trivial, hiter⟩
    | Ignored =>
      rw [runTests_cons hwait ht (completeTest_ignored _ rfl)] at hrun
      have hrun2 : runTests ⟨s.index + 1, s.tests, false, s.outcomes + 1, s.data,
          writeByte s.mem s.outcomes 2⟩ os = .ok sF := hrun
      obtain ⟨hiter, htests, hindex, hout, hdata, hf₁, hf₂⟩ := ih ⟨s.index + 1, s.tests, false,
          s.outcomes + 1, s.data, writeByte s.mem s.outcomes 2⟩ sF rfl
        (show os.length = s.tests.length - (s.index + 1) by omega)
        (show s.index + 1 ≤ s.tests.length by omega) hdvd
        (show s.outcomes + 1 + (s.tests.length - (s.index + 1)) ≤ s.data by omega)
        hmsgs' hrun2
      replace hiter : iterOutcomes sF.mem (s.tests.drop (s.index + 1)) (s.outcomes + 1) s.data
          = (s.tests.drop (s.index + 1)).zip os := hiter
      replace htests : sF.tests = s.tests := htests
      replace hindex : sF.index = s.tests.length := hindex
      replace hout : sF.outcomes = s.outcomes + 1 + os.length := hout
      replace hdata : s.data ≤ sF.data := hdata
      replace hf₁ : ∀ a, a < s.outcomes + 1 → sF.mem a = writeByte s.mem s.outcomes 2 a := hf₁
      replace hf₂ : ∀ a, s.outcomes + 1 + os.length ≤ a → a < s.data →
          sF.mem a = writeByte s.mem s.outcomes 2 a := hf₂
      have htag : sF.mem s.outcomes = 2 := by
        rw [hf₁ s.outcomes (by omega), writeByte_apply, if_pos rfl]
      refine ⟨?_, htests, hindex, by simp only [List.length_cons]; omega, hdata,
        fun a ha => by rw [hf₁ a (by omega), writeByte_apply_ne _ (by omega)],
        fun a ha₁ ha₂ => by
          simp only [List.length_cons] at ha₁
          rw [hf₂ a (by omega) ha₂, writeByte_apply_ne _ (by omega)]⟩
      simp only [iterOutcomes, htag, decodeVariant, List.zip_cons_cons, List.cons.injEq]
      exact ⟨trivial, hiter⟩
    | Failed bs =>
      have hct : Tests.completeTest { s with waiting := true } (.Failed bs) =
          match writeRecord (writeByte s.mem s.outcomes 1) s.data bs with
          | none => Except.error (TestsPanic.noSpace (writeByte s.mem s.outcomes 1))
          | some (m₂, d₂) =>
            Except.ok ⟨s.index + 1, s.tests, false, s.outcomes + 1, d₂, m₂⟩ :=
        completeTest_failed ({ s with waiting := true }) rfl bs
      cases hwr : writeRecord (writeByte s.mem s.outcomes 1) s.data bs with
      | none =>
        rw [hwr] at hct
        replace hct : Tests.completeTest { s with waiting := true } (.Failed bs) =
            Except.error (TestsPanic.noSpace (writeByte s.mem s.outcomes 1)) := hct
        rw [runTests_cons_err hwait ht hct] at hrun
        exact absurd hrun (by simp)
      | some p =>
        obtain ⟨m₂, d₂⟩ := p
        rw [hwr] at hct
        replace hct : Tests.completeTest { s with waiting := true } (.Failed bs) =
            Except.ok ⟨s.index + 1, s.tests, false, s.outcomes + 1, d₂, m₂⟩ := hct
        rw [runTests_cons hwait ht hct] at hrun
        obtain ⟨hfit, hd₂, -⟩ := writeRecord_eq hwr
        have hd₂dvd : 4 ∣ d₂ := by
          rw [hd₂]; exact Dvd.dvd.add (alignForward_dvd _) (by norm_num)
        have hd₂ge : s.data + 4 + bs.length + 4 ≤ d₂ := by
          have := le_alignForward (s.data + 4 + bs.length); omega
        obtain ⟨hiter, htests, hindex, hout, hdata, hf₁, hf₂⟩ := ih ⟨s.index + 1, s.tests, false,
            s.outcomes + 1, d₂, m₂⟩ sF rfl
          (show os.length = s.tests.length - (s.index + 1) by omega)
          (show s.index + 1 ≤ s.tests.length by omega) hd₂dvd
          (show s.outcomes + 1 + (s.tests.length - (s.index + 1)) ≤ d₂ by omega)
          hmsgs' hrun
        replace hiter : iterOutcomes sF.mem (s.tests.drop (s.index + 1)) (s.outcomes + 1) d₂
            = (s.tests.drop (s.index + 1)).zip os := hiter
        replace htests : sF.tests = s.tests := htests
        replace hindex : sF.index = s.tests.length := hindex
        replace hout : sF.outcomes = s.outcomes + 1 + os.length := hout
        replace hdata : d₂ ≤ sF.data := hdata
        replace hf₁ : ∀ a, a < s.outcomes + 1 → sF.mem a = m₂ a := hf₁
        replace hf₂ : ∀ a, s.outcomes + 1 + os.length ≤ a → a < d₂ → sF.mem a = m₂ a := hf₂
        have hbs : ∀ b ∈ bs, b < 256 := hmsgs bs (by simp [failedMessages])
        have htag : sF.mem s.outcomes = 1 := by
          rw [hf₁ s.outcomes (by omega), writeRecord_frame hwr (Or.inl (by omega)),
            writeByte_apply, if_pos rfl]
        have hrecFrame : ∀ i, s.data ≤ i → i < d₂ → sF.mem i = m₂ i := by
          intro i hi₁ hi₂
          exact hf₂ i (by omega) hi₂
        have hlenRead : readWord sF.mem s.data = bs.length := by
          rw [readWord_congr s.data (fun i hi => hrecFrame (s.data + i) (by omega) (by omega)),
            writeRecord_header hwr]
        have hbytesRead : readBytes sF.mem (s.data + 4) bs.length = bs := by
          rw [readBytes_congr (s.data + 4) bs.length
              (fun i hi => hrecFrame (s.data + 4 + i) (by omega) (by omega)),
            writeRecord_bytes hwr hbs]
        have hstep : alignForward (s.data + bs.length + 8) = d₂ := by
          rw [alignForward_advance hdvd, hd₂]
        refine ⟨?_, htests, hindex, by simp only [List.length_cons]; omega, by omega,
          fun a ha => by
            rw [hf₁ a (by omega), writeRecord_frame hwr (Or.inl (by omega)),
              writeByte_apply_ne _ (by omega)],
          fun a ha₁ ha₂ => by
            simp only [List.length_cons] at ha₁
            rw [hf₂ a (by omega) (by omega), writeRecord_frame hwr (Or.inl (by omega)),
              writeByte_apply_ne _ (by omega)]⟩
        simp only [iterOutcomes, htag, decodeVariant, hlenRead, hbytesRead, hstep,
          List.zip_cons_cons, List.cons.injEq]
        exact ⟨trivial, hiter⟩

theorem zip_failedMessages (tests : List TestCase) :
    ∀ os : List (Outcome (List Nat)), os.length = tests.length →
    ((tests.zip os).filterMap fun y =>
        match y.2 with | Outcome.Failed msg => some msg | _ => none) = failedMessages os := by
  induction tests with
  | nil =>
    intro os hlen
    cases os with
    | nil => rfl
    | cons o os => simp at hlen
  | cons t tests ih =>
    intro os hlen
    cases os with
    | nil => simp at hlen
    | cons o os =>
      simp only [List.length_cons] at hlen
      cases o <;> simp [failedMessages] <;> exact ih os (by omega)

theorem zip_failedCount (tests : List TestCase) :
    ∀ os : List (Outcome (List Nat)), os.length = tests.length →
    ((tests.zip os).filter fun y => isFailed y.2).length = (failedMessages os).length := by
  induction tests with
  | nil =>
    intro os hlen
    cases os with
    | nil => rfl
    | cons o os => simp at hlen
  | cons t tests ih =>
    intro os hlen
    cases os with
    | nil => simp at hlen
    | cons o os =>
      simp only [List.length_cons] at hlen
      cases o <;> simp [failedMessages, isFailed] <;> exact ih os (by omega)

/-- C1: for every sequence of `N` test cases executed to completion (one
`complete_test` per test), the read-back iterator yields exactly the `N`
(test case, outcome) pairs in declaration order, each pair carrying the
outcome tag recorded by the corresponding `complete_test` call, and the
number of `Failed` entries equals the number of message records appended to
the message region (one per `Failed` completion), whose decoded contents
appear in the same relative order as the failing completions. -/
theorem c1_readback_yields_recorded_outcomes
    (tests : List TestCase) (os : List (Outcome (List Nat))) (d : Nat) (m : Mem)
    (ys : List (TestCase × Outcome (List Nat)))
    (hlen : os.length = tests.length)
    (hmsgs : ∀ msg ∈ failedMessages os, ∀ b ∈ msg, b < 256)
    (hrun : runAndRead tests d m os = some ys) :
    ys = tests.zip os
    ∧ ys.length = os.length
    ∧ ((ys.filter fun y => isFailed y.2).length = (failedMessages os).length)
    ∧ (ys.filterMap fun y =>
         match y.2 with | Outcome.Failed msg => some msg | _ => none) = failedMessages os := by
  by_cases hg : alignForward (d + tests.length) > EWRAM_MAX
  · have hnone : runAndRead tests d m os = none := by
      unfold runAndRead Tests.new
      rw [if_pos hg]
    rw [hnone] at hrun
    exact absurd hrun (by simp)
  · have hnew : Tests.new tests d m =
        .ok ⟨0, tests, false, d, alignForward (d + tests.length), m⟩ := by
      unfold Tests.new
      rw [if_neg hg]
    cases hr : runTests ⟨0, tests, false, d, alignForward (d + tests.length), m⟩ os with
    | error e =>
      have hnone : runAndRead tests d m os = none := by
        unfold runAndRead
        rw [hnew]
        show (match runTests ⟨0, tests, false, d, alignForward (d + tests.length), m⟩ os with
              | Except.error _ => (none : Option (List (TestCase × Outcome (List Nat))))
              | Except.ok sF =>
                match sF.testOutcomes with
                | Except.error _ => none
                | Except.ok t => some t.iterList) = none
        rw [hr]
      rw [hnone] at hrun
      exact absurd hrun (by simp)
    | ok sF =>
      obtain ⟨hiter, htests, hindex, hout, hdata, hf₁, hf₂⟩ :=
        runTests_decode os ⟨0, tests, false, d, alignForward (d + tests.length), m⟩ sF rfl
          (show os.length = tests.length - 0 by omega)
          (show (0 : Nat) ≤ tests.length by omega)
          (alignForward_dvd _)
          (show d + (tests.length - 0) ≤ alignForward (d + tests.length) by
            have := le_alignForward (d + tests.length); omega)
          hmsgs hr
      replace hiter : iterOutcomes sF.mem (tests.drop 0) d (alignForward (d + tests.length))
          = (tests.drop 0).zip os := hiter
      replace htests : sF.tests = tests := htests
      replace hindex : sF.index = tests.length := hindex
      replace hout : sF.outcomes = d + os.length := hout
      rw [List.drop_zero] at hiter
      have hto : sF.testOutcomes =
          .ok ⟨sF.tests, sF.outcomes - sF.tests.length, alignForward sF.outcomes, sF.mem⟩ := by
        unfold Tests.testOutcomes
        rw [if_neg (by rw [hindex, htests]; omega)]
      have hsome : runAndRead tests d m os =
          some (iterOutcomes sF.mem sF.tests (sF.outcomes - sF.tests.length)
            (alignForward sF.outcomes)) := by
        unfold runAndRead
        rw [hnew]
        show (match runTests ⟨0, tests, false, d, alignForward (d + tests.length), m⟩ os with
              | Except.error _ => (none : Option (List (TestCase × Outcome (List Nat))))
              | Except.ok sF =>
                match sF.testOutcomes with
                | Except.error _ => none
                | Except.ok t => some t.iterList) = _
        rw [hr]
        show (match sF.testOutcomes with
              | Except.error _ => (none : Option (List (TestCase × Outcome (List Nat))))
              | Except.ok t => some t.iterList) = _
        rw [hto]
        rfl
      rw [hsome] at hrun
      have hys : ys = tests.zip os := by
        have h₁ : sF.outcomes - sF.tests.length = d := by rw [hout, htests]; omega
        have h₂ : alignForward sF.outcomes = alignForward (d + tests.length) := by
          rw [hout, hlen]
        injection hrun with hrun
        rw [← hrun, h₁, h₂, htests, hiter]
      refine ⟨hys, ?_, ?_, ?_⟩
      · rw [hys, List.length_zip]; omega
      · rw [hys, zip_failedCount tests os hlen]
      · rw [hys, zip_failedMessages tests os hlen]

/-- Concrete test cases used by the evaluation witnesses. -/
def tcA : TestCase := ⟨"first", ["crate"], Ignore.No, ShouldPanic.No⟩

/-- A second concrete test case for the evaluation witnesses. -/
def tcB : TestCase := ⟨"second", ["crate", "sub"], Ignore.No, ShouldPanic.No⟩

theorem c1_readback_yields_recorded_outcomes_witness :
    (([(tcA, Outcome.Passed), (tcB, Outcome.Failed [65])] :
        List (TestCase × Outcome (List Nat)))
      = [tcA, tcB].zip [Outcome.Passed, Outcome.Failed [65]])
    ∧ ([(tcA, Outcome.Passed), (tcB, Outcome.Failed [65])] :
        List (TestCase × Outcome (List Nat))).length
      = ([Outcome.Passed, Outcome.Failed [65]] : List (Outcome (List Nat))).length
    ∧ ((([(tcA, Outcome.Passed), (tcB, Outcome.Failed [65])] :
        List (TestCase × Outcome (List Nat))).filter fun y => isFailed y.2).length
      = (failedMessages [Outcome.Passed, Outcome.Failed [65]]).length)
    ∧ (([(tcA, Outcome.Passed), (tcB, Outcome.Failed [65])] :
        List (TestCase × Outcome (List Nat))).filterMap fun y =>
          match y.2 with | Outcome.Failed msg => some msg | _ => none)
      = failedMessages [Outcome.Passed, Outcome.Failed [65]] :=
  c1_readback_yields_recorded_outcomes [tcA, tcB] [Outcome.Passed, Outcome.Failed [65]]
    0 (fun _ => 0) [(tcA, Outcome.Passed), (tcB, Outcome.Failed [65])]
    (by decide) (by decide) (by decide)

/-! ## Exit code (C3), record capacity (C6), fatal conditions (C7),
forward/backward decode (C2) -/

/-- C3: on completion the runner signals exactly one numeric exit code:
`0` exactly when no recorded outcome is `Failed` (every executed,
non-ignored test passed), and the single non-zero value `1` otherwise. -/
theorem c3_exit_code (ys : List (TestCase × Outcome (List Nat))) :
    (reportedExitCode ys = 0 ↔ ∀ y ∈ ys, isFailed y.2 = false)
    ∧ (reportedExitCode ys ≠ 0 ↔ ∃ y ∈ ys, isFailed y.2 = true)
    ∧ (reportedExitCode ys = 0 ∨ reportedExitCode ys = 1) := by
  unfold reportedExitCode
  cases h : ys.any fun y => isFailed y.2 with
  | false =>
    rw [List.any_eq_false] at h
    simp only [Bool.toNat_false]
    exact ⟨iff_of_true trivial (fun y hy => by simpa using h y hy),
      iff_of_false (by simp) (by rintro ⟨y, hy, hf⟩; exact h y hy hf),
      Or.inl trivial⟩
  | true =>
    rw [List.any_eq_true] at h
    obtain ⟨y, hy, hf⟩ := h
    simp only [Bool.toNat_true]
    exact ⟨iff_of_false (by simp) (fun hall => by simp [hall y hy] at hf),
      iff_of_true (by simp) ⟨y, hy, hf⟩,
      Or.inr trivial⟩

theorem c3_exit_code_witness :
    (reportedExitCode [(tcA, Outcome.Passed)] = 0 ↔
      ∀ y ∈ [(tcA, (Outcome.Passed : Outcome (List Nat)))], isFailed y.2 = false)
    ∧ (reportedExitCode [(tcA, Outcome.Passed)] ≠ 0 ↔
      ∃ y ∈ [(tcA, (Outcome.Passed : Outcome (List Nat)))], isFailed y.2 = true)
    ∧ (reportedExitCode [(tcA, Outcome.Passed)] = 0
      ∨ reportedExitCode [(tcA, Outcome.Passed)] = 1) :=
  c3_exit_code [(tcA, Outcome.Passed)]

/-- C2 (divergence witness): writing the 3-byte message `foo` through the
scoped writer into zeroed memory at an aligned cursor, the forward decoder
recovers exactly the original bytes, but the backward decoder — which
subtracts the length from the footer address without accounting for the
alignment padding — returns the last two message bytes followed by the
padding byte. Forward and backward decoding disagree on every record whose
length is not a multiple of 4. -/
theorem c2_backward_decode_diverges :
    ((writeRecord (fun _ => 0) 0 [102, 111, 111]).map
        (fun r => ((nextErrorMessage r.1 0).1, (nextErrorMessage r.1 0).2,
                   (prevErrorMessage r.1 r.2).1, (prevErrorMessage r.1 r.2).2)))
      = some ([102, 111, 111], 12, [111, 111, 0], 0)
    ∧ ([111, 111, 0] : List Nat) ≠ [102, 111, 111] := by
  exact ⟨by decide, by decide⟩

/-- C6 (amended): every byte the scoped message writer stores — message
bytes, 4-byte header, and 4-byte footer past the alignment padding — lies
below `EWRAM_MAX`; when the record does not fit, the write reports failure
(nothing at all is written), and `complete_test` treats it as fatal. (The
claim additionally asserted that finalization still runs on the fatal path;
it does not — see the counterexample.) -/
theorem c6_capacity_safety (m : Mem) (start : Nat) (bs : List Nat) (s : Tests) :
    (∀ m₂ e, writeRecord m start bs = some (m₂, e) →
       e ≤ EWRAM_MAX ∧ (∀ a, m₂ a ≠ m a → a < EWRAM_MAX))
    ∧ (start + 4 + bs.length + 4 > EWRAM_MAX →
       writeRecord m start bs = none
       ∧ (s.waiting = true → s.data = start → s.mem = m →
           ∃ mp, s.completeTest (.Failed bs) = .error (.noSpace mp))) := by
  constructor
  · intro m₂ e hw
    obtain ⟨hfit, he, -⟩ := writeRecord_eq hw
    have hmono := alignForward_mono (show start + 4 + bs.length ≤ EWRAM_MAX - 4 by omega)
    have hmax : alignForward (EWRAM_MAX - 4) = EWRAM_MAX - 4 :=
      alignForward_of_dvd (by norm_num [EWRAM_MAX])
    have hemax : e ≤ EWRAM_MAX := by omega
    refine ⟨hemax, fun a ha => ?_⟩
    by_contra hge
    exact ha (writeRecord_frame hw (Or.inr (by omega)))
  · intro hover
    refine ⟨writeRecord_none m start bs hover, fun hw hd hm => ?_⟩
    refine ⟨writeByte s.mem s.outcomes 1, ?_⟩
    rw [completeTest_failed s hw bs, writeRecord_none _ _ _ (by rw [hd]; omega)]

theorem c6_capacity_safety_witness :
    ((0 : Nat) + 4 + ([65] : List Nat).length + 4 ≤ EWRAM_MAX
      ∧ ∀ m₂ e, writeRecord (fun _ => 0) 0 [65] = some (m₂, e) → e ≤ EWRAM_MAX)
    ∧ (writeRecord (fun _ => 0) (EWRAM_MAX - 8) [65] = none) :=
  ⟨⟨by decide, fun m₂ e hw =>
    ((c6_capacity_safety (fun _ => 0) 0 [65]
        ⟨0, [], false, 0, 0, fun _ => 0⟩).1 m₂ e hw).1⟩,
    ((c6_capacity_safety (fun _ => 0) (EWRAM_MAX - 8) [65]
        ⟨0, [], false, 0, 0, fun _ => 0⟩).2 (by decide)).1⟩

/-- C6 counterexample (finalization clause): with the append cursor 8 bytes
below the top of the region and a 1-byte message, the capacity check fails,
`complete_test` panics, and — since the panic never unwinds — the scoped
writer is not finalized: the header word at the append cursor still holds
the initial memory contents `0`, not the length `1` a finalized record
would carry. -/
theorem c6_finalization_skipped_on_panic :
    Tests.completeTest ⟨0, [tcA], true, EWRAM_MAX - 9, EWRAM_MAX - 8, fun _ => 0⟩
        (Outcome.Failed [65])
      = .error (.noSpace (writeByte (fun _ => 0) (EWRAM_MAX - 9) 1))
    ∧ readWord (writeByte (fun _ => 0) (EWRAM_MAX - 9) 1) (EWRAM_MAX - 8) = 0
    ∧ (0 : Nat) ≠ [(65 : Nat)].length := by
  refine ⟨?_, by decide, by decide⟩
  rw [completeTest_failed _ rfl, writeRecord_none _ _ _ (by decide)]

/-- C7: the fatal panic conditions of the execution state machine, and the
non-panicking behaviour of `start_test`: starting while a test is pending
panics; completing while none is pending panics; constructing the ledger
when the tag array does not fit below `EWRAM_MAX` panics; reading the
outcomes back before `index` reaches `len(tests)` panics; otherwise
`start_test` returns the next untested case, or `none` when all tests are
done. -/
theorem c7_fatal_conditions (s : Tests) (tests : List TestCase) (d : Nat) (m : Mem) :
    (s.waiting = true → s.startTest = .error .notCompleted)
    ∧ (s.waiting = false →
        ∀ o : Outcome (List Nat), s.completeTest o = .error .notExecuting)
    ∧ (alignForward (d + tests.length) > EWRAM_MAX →
        Tests.new tests d m = .error .outOfMemory)
    ∧ (s.index < s.tests.length → s.testOutcomes = .error .notFinished)
    ∧ (s.waiting = false → ∀ h : s.index < s.tests.length,
        s.startTest = .ok (some (s.tests.get ⟨s.index, h⟩), { s with waiting := true }))
    ∧ (s.waiting = false → s.tests.length ≤ s.index → s.startTest = .ok (none, s)) := by
  refine ⟨fun hw => ?_, fun hw o => ?_, fun hg => ?_, fun hi => ?_,
    fun hw h => ?_, fun hw h => ?_⟩
  · unfold Tests.startTest
    rw [if_pos hw]
  · unfold Tests.completeTest
    rw [hw]
    rfl
  · unfold Tests.new
    rw [if_pos hg]
  · unfold Tests.testOutcomes
    rw [if_pos hi]
  · exact startTest_ok hw (List.getElem?_eq_getElem h)
  · unfold Tests.startTest
    rw [hw, List.getElem?_eq_none h]
    rfl

theorem c7_fatal_conditions_witness :
    Tests.startTest ⟨0, [tcA], true, 64, 68, fun _ => 0⟩ = .error .notCompleted
    ∧ Tests.completeTest ⟨0, [tcA], false, 64, 68, fun _ => 0⟩ (Outcome.Passed)
        = .error .notExecuting
    ∧ Tests.new [tcA] EWRAM_MAX (fun _ => 0) = .error .outOfMemory
    ∧ Tests.testOutcomes ⟨0, [tcA], false, 64, 68, fun _ => 0⟩ = .error .notFinished
    ∧ Tests.startTest ⟨0, [tcA], false, 64, 68, fun _ => 0⟩
        = .ok (some (([tcA] : List TestCase).get ⟨0, by decide⟩),
               ⟨0, [tcA], true, 64, 68, fun _ => 0⟩)
    ∧ Tests.startTest ⟨1, [tcA], false, 64, 68, fun _ => 0⟩
        = .ok (none, ⟨1, [tcA], false, 64, 68, fun _ => 0⟩) :=
  ⟨(c7_fatal_conditions ⟨0, [tcA], true, 64, 68, fun _ => 0⟩ [] 0 (fun _ => 0)).1 rfl,
   (c7_fatal_conditions ⟨0, [tcA], false, 64, 68, fun _ => 0⟩ [] 0 (fun _ => 0)).2.1 rfl _,
   (c7_fatal_conditions ⟨0, [], false, 0, 0, fun _ => 0⟩ [tcA] EWRAM_MAX
      (fun _ => 0)).2.2.1 (by decide),
   (c7_fatal_conditions ⟨0, [tcA], false, 64, 68, fun _ => 0⟩ [] 0 (fun _ => 0)).2.2.2.1
      (by decide),
   (c7_fatal_conditions ⟨0, [tcA], false, 64, 68, fun _ => 0⟩ [] 0 (fun _ => 0)).2.2.2.2.1
      rfl (by decide),
   (c7_fatal_conditions ⟨1, [tcA], false, 64, 68, fun _ => 0⟩ [] 0 (fun _ => 0)).2.2.2.2.2
      rfl (by decide)⟩

/-! ## Filters and the windowed browser (`Filter`, `ModuleFilter`,
`FilteredTestOutcomesIter`, `Window` in `test.rs`) -/

instance : Inhabited TestCase := ⟨⟨"", [], Ignore.No, ShouldPanic.No⟩⟩

/-- `impl Filter for All`. -/
def allFilter {Data : Type} : Outcome Data → Bool := fun _ => true

/-- `impl Filter for Failed` (`matches!(outcome, Outcome::Failed(_))`). -/
def failedFilter {Data : Type} : Outcome Data → Bool
  | .Failed _ => true
  | _ => false

/-- `impl Filter for Passed`. -/
def passedFilter {Data : Type} : Outcome Data → Bool
  | .Passed => true
  | _ => false

/-- `impl Filter for Ignored`. -/
def ignoredFilter {Data : Type} : Outcome Data → Bool
  | .Ignored => true
  | _ => false

/-- `ModuleFilter` from `test.rs`. -/
structure ModuleFilter where
  module_path : List String

/-- `ModuleFilter::filter`: `test_case.modules().starts_with(self.module_path)`. -/
def ModuleFilter.filter (f : ModuleFilter) (t : TestCase) : Bool :=
  f.module_path.isPrefixOf t.modules

/-- The combined predicate used by `FilteredTestOutcomesIter::next` and
`Window::next`/`prev`: the tag filter conjoined with
`module_filter.is_none_or(|filter| filter.filter(test_case))`. -/
def passesFilters (P : Outcome (List Nat) → Bool) (mf : Option ModuleFilter)
    (t : TestCase) (o : Outcome (List Nat)) : Bool :=
  P o && (match mf with | none => true | some f => f.filter t)

/-- `FilteredTestOutcomesIter::next`, iterated to exhaustion: pulls pairs
from the underlying `TestOutcomesIter` and yields exactly those passing the
filters. -/
def filteredIterOutcomes (P : Outcome (List Nat) → Bool) (mf : Option ModuleFilter)
    (m : Mem) : List TestCase → Nat → Nat → List (TestCase × Outcome (List Nat))
  | [], _, _ => []
  | t :: rest, op, dp =>
    match decodeVariant (m op) with
    | .Passed =>
      if passesFilters P mf t .Passed
      then (t, .Passed) :: filteredIterOutcomes P mf m rest (op + 1) dp
      else filteredIterOutcomes P mf m rest (op + 1) dp
    | .Ignored =>
      if passesFilters P mf t .Ignored
      then (t, .Ignored) :: filteredIterOutcomes P mf m rest (op + 1) dp
      else filteredIterOutcomes P mf m rest (op + 1) dp
    | .Failed =>
      let length := readWord m dp
      let bytes := readBytes m (dp + 4) length
      let dp₂ := alignForward (dp + length + 8)
      if passesFilters P mf t (.Failed bytes)
      then (t, .Failed bytes) :: filteredIterOutcomes P mf m rest (op + 1) dp₂
      else filteredIterOutcomes P mf m rest (op + 1) dp₂

/-- The `Window` struct from `test.rs`. The `test_case` pointer is modelled
as an index into the borrowed tests array; `outcome`,
`error_message_front` and `error_message_back` are raw addresses. The
filter type parameters and the borrowed memory are passed to each
operation. -/
structure Window where
  test_case : Nat
  outcome : Nat
  error_message_front : Nat
  error_message_back : Nat
  length : Nat
  index : Nat
  filtered_length : Nat
  filtered_index : Nat
deriving DecidableEq, Repr

/-- `Window::iter`: a `FilteredTestOutcomesIter` over the slice of
`self.length - self.index` tests starting at the current `test_case`
pointer, with tags at `outcome` and messages at `error_message_front`. -/
def Window.iterList (w : Window) (P : Outcome (List Nat) → Bool)
    (mf : Option ModuleFilter) (tests : List TestCase) (m : Mem) :
    List (TestCase × Outcome (List Nat)) :=
  filteredIterOutcomes P mf m ((tests.drop w.test_case).take (w.length - w.index))
    w.outcome w.error_message_front

/-- `Window::get`: `self.iter().nth(index)`. -/
def Window.get (w : Window) (P : Outcome (List Nat) → Bool) (mf : Option ModuleFilter)
    (tests : List TestCase) (m : Mem) (i : Nat) :
    Option (TestCase × Outcome (List Nat)) :=
  (w.iterList P mf tests m).get? i

/-- `Window::next_unfiltered`: a no-op returning `none` when
`filtered_index == filtered_length.saturating_sub(SIZE)`; otherwise
advances the test-case and tag cursors, decodes the outcome at the new
position (consuming one record at `error_message_back` when it is
`Failed`), advances `error_message_front` past one record when the slot
just left behind is `Failed`, and bumps `index`. -/
def Window.nextUnfiltered (SIZE : Nat) (m : Mem) (w : Window) :
    Option (Outcome (List Nat)) × Window :=
  if w.filtered_index = w.filtered_length - SIZE then (none, w)
  else
    let w₁ := { w with test_case := w.test_case + 1, outcome := w.outcome + 1 }
    let p :=
      match decodeVariant (m w₁.outcome) with
      | .Passed => ((Outcome.Passed : Outcome (List Nat)), w₁)
      | .Ignored => ((Outcome.Ignored : Outcome (List Nat)), w₁)
      | .Failed =>
        let r := nextErrorMessage m w₁.error_message_back
        (Outcome.Failed r.1, { w₁ with error_message_back := r.2 })
    let w₃ :=
      match decodeVariant (m (p.2.outcome - 1)) with
      | .Failed =>
        { p.2 with error_message_front := (nextErrorMessage m p.2.error_message_front).2 }
      | _ => p.2
    (some p.1, { w₃ with index := w₃.index + 1 })

/-- `Window::prev_unfiltered`: the mirror of `next_unfiltered`, a no-op at
`filtered_index == 0`, decoding backward from `error_message_front` and
retreating `error_message_back` when the slot leaving the bottom of the
window (`outcome + SIZE`) is `Failed`. -/
def Window.prevUnfiltered (SIZE : Nat) (m : Mem) (w : Window) :
    Option (Outcome (List Nat)) × Window :=
  if w.filtered_index = 0 then (none, w)
  else
    let w₁ := { w with test_case := w.test_case - 1, outcome := w.outcome - 1 }
    let p :=
      match decodeVariant (m w₁.outcome) with
      | .Passed => ((Outcome.Passed : Outcome (List Nat)), w₁)
      | .Ignored => ((Outcome.Ignored : Outcome (List Nat)), w₁)
      | .Failed =>
        let r := prevErrorMessage m w₁.error_message_front
        (Outcome.Failed r.1, { w₁ with error_message_front := r.2 })
    let w₃ :=
      match decodeVariant (m (p.2.outcome + SIZE)) with
      | .Failed =>
        { p.2 with error_message_back := (prevErrorMessage m p.2.error_message_back).2 }
      | _ => p.2
    (some p.1, { w₃ with index := w₃.index - 1 })

/-- The scan loop inside `Window::next`: keeps calling `next_unfiltered`,
returning the first outcome that passes the filters (bumping
`filtered_index`), and restoring the saved state (`old`) with `none` when
`next_unfiltered` reports the end. The source loop has no intrinsic bound
(its guard cannot change while scanning), so the model carries fuel; fuel
exhaustion also restores the saved state. -/
def Window.nextLoop (P : Outcome (List Nat) → Bool) (mf : Option ModuleFilter)
    (SIZE : Nat) (tests : List TestCase) (m : Mem) (old : Window) :
    Nat → Window → Option (Outcome (List Nat)) × Window
  | 0, _ => (none, old)
  | fuel + 1, w =>
    match Window.nextUnfiltered SIZE m w with
    | (none, _) => (none, old)
    | (some outcome, w₁) =>
      if passesFilters P mf (tests.getD w₁.test_case default) outcome
      then (some outcome, { w₁ with filtered_index := w₁.filtered_index + 1 })
      else Window.nextLoop P mf SIZE tests m old fuel w₁

/-- `Window::next`: clones the state, scans, and either slides the window
forward by one matching element or restores the clone and returns `none`. -/
def Window.next (P : Outcome (List Nat) → Bool) (mf : Option ModuleFilter)
    (SIZE : Nat) (tests : List TestCase) (m : Mem) (fuel : Nat) (w : Window) :
    Option (Outcome (List Nat)) × Window :=
  Window.nextLoop P mf SIZE tests m w fuel w

/-- The scan loop inside `Window::prev` (mirror of `nextLoop`). -/
def Window.prevLoop (P : Outcome (List Nat) → Bool) (mf : Option ModuleFilter)
    (SIZE : Nat) (tests : List TestCase) (m : Mem) (old : Window) :
    Nat → Window → Option (Outcome (List Nat)) × Window
  | 0, _ => (none, old)
  | fuel + 1, w =>
    match Window.prevUnfiltered SIZE m w with
    | (none, _) => (none, old)
    | (some outcome, w₁) =>
      if passesFilters P mf (tests.getD w₁.test_case default) outcome
      then (some outcome, { w₁ with filtered_index := w₁.filtered_index - 1 })
      else Window.prevLoop P mf SIZE tests m old fuel w₁

/-- `Window::prev`: clones the state, scans backward, and either slides the
window back by one matching element or restores the clone and returns
`none`. -/
def Window.prev (P : Outcome (List Nat) → Bool) (mf : Option ModuleFilter)
    (SIZE : Nat) (tests : List TestCase) (m : Mem) (fuel : Nat) (w : Window) :
    Option (Outcome (List Nat)) × Window :=
  Window.prevLoop P mf SIZE tests m w fuel w

theorem filteredIterOutcomes_eq_filter (P : Outcome (List Nat) → Bool)
    (mf : Option ModuleFilter) (m : Mem) :
    ∀ (ts : List TestCase) (op dp : Nat),
    filteredIterOutcomes P mf m ts op dp
      = (iterOutcomes m ts op dp).filter fun y => passesFilters P mf y.1 y.2 := by
  intro ts
  induction ts with
  | nil => intro op dp; rfl
  | cons t rest ih =>
    intro op dp
    simp only [filteredIterOutcomes, iterOutcomes]
    cases decodeVariant (m op) with
    | Passed => rw [List.filter_cons]; cases hp : passesFilters P mf t .Passed <;> simp [hp, ih]
    | Ignored => rw [List.filter_cons]; cases hp : passesFilters P mf t .Ignored <;> simp [hp, ih]
    | Failed =>
      rw [List.filter_cons]
      cases hp : passesFilters P mf t (.Failed (readBytes m (dp + 4) (readWord m dp))) <;>
        simp [hp, ih]

/-- C4: for every tag predicate `P` (each of the four filters is an
instance) optionally conjoined with a module-path filter, the sequence
produced by the `Filtered Window` iterator — and hence `get(i)` for every
`i` — equals the subsequence of the full read-back iterator satisfying the
predicate, in the same relative order, starting from the window's current
front position. -/
theorem c4_filter_correctness (P : Outcome (List Nat) → Bool) (mf : Option ModuleFilter)
    (tests : List TestCase) (m : Mem) (w : Window) :
    w.iterList P mf tests m
      = (iterOutcomes m ((tests.drop w.test_case).take (w.length - w.index))
          w.outcome w.error_message_front).filter (fun y => passesFilters P mf y.1 y.2)
    ∧ ∀ i, w.get P mf tests m i
      = ((iterOutcomes m ((tests.drop w.test_case).take (w.length - w.index))
          w.outcome w.error_message_front).filter
            (fun y => passesFilters P mf y.1 y.2)).get? i := by
  have h := filteredIterOutcomes_eq_filter P mf m
    ((tests.drop w.test_case).take (w.length - w.index)) w.outcome w.error_message_front
  exact ⟨h, fun i => by rw [Window.get, Window.iterList, h]⟩

/-- C8: `Window::next` invoked when the window is already at its last
position (`filtered_index` at the saturating difference, which covers every
filter matching `SIZE` or fewer elements, in particular zero) returns
`none` and leaves the window state — and the memory, which these
operations never write — byte-for-byte unchanged; symmetrically
`Window::prev` at position zero. This holds for every fuel bound on the
scan loop. -/
theorem c8_window_noops (P : Outcome (List Nat) → Bool) (mf : Option ModuleFilter)
    (SIZE : Nat) (tests : List TestCase) (m : Mem) (fuel : Nat) (w : Window) :
    (w.filtered_index = w.filtered_length - SIZE →
      Window.next P mf SIZE tests m (fuel + 1) w = (none, w))
    ∧ (w.filtered_index = 0 →
      Window.prev P mf SIZE tests m (fuel + 1) w = (none, w)) := by
  constructor
  · intro hlast
    unfold Window.next Window.nextLoop Window.nextUnfiltered
    rw [if_pos hlast]
  · intro hzero
    unfold Window.prev Window.prevLoop Window.prevUnfiltered
    rw [if_pos hzero]

theorem c8_window_noops_witness :
    (Window.next allFilter none 18 [tcA] (fun _ => 0) 5
        ⟨0, 0, 0, 0, 1, 0, 1, 0⟩ = (none, ⟨0, 0, 0, 0, 1, 0, 1, 0⟩))
    ∧ (Window.prev allFilter none 18 [tcA] (fun _ => 0) 5
        ⟨0, 0, 0, 0, 1, 0, 1, 0⟩ = (none, ⟨0, 0, 0, 0, 1, 0, 1, 0⟩)) :=
  ⟨(c8_window_noops allFilter none 18 [tcA] (fun _ => 0) 4
      ⟨0, 0, 0, 0, 1, 0, 1, 0⟩).1 (by decide),
   (c8_window_noops allFilter none 18 [tcA] (fun _ => 0) 4
      ⟨0, 0, 0, 0, 1, 0, 1, 0⟩).2 (by decide)⟩

/-! ## The panic-substring matcher (`contains.rs`) and the panic handler
branch (`runner.rs`)

A panic message reaches `core::fmt::Write` sinks as a sequence of chunks
(the pieces the `Display` implementation emits); `PanicMessage::as_str`
returns `some` exactly when the panic carried a plain string literal. All
`usize` arithmetic in the searcher is interleaved with `% MODULUS`, which
keeps the multiply/add steps far below `2^32`; the one place 32-bit
wrapping can actually occur (`+= MODULUS; -= removed_hash` in
`ByteRemover`) carries an explicit `% 2^32`. -/

/-- A panic message: the ordered write chunks plus the `as_str` view (equal
to the concatenated chunks when present). -/
structure PanicMessage where
  chunks : List (List Nat)
  asStr : Option (List Nat)

/-- `BASE` from `contains.rs`. -/
def BASE : Nat := 256

/-- `MODULUS` from `contains.rs`. -/
def MODULUS : Nat := 101

/-- One `u32` wrap-around (the GBA `usize` is 32 bits wide). -/
def U32 : Nat := 4294967296

/-- `hash` from `contains.rs`. -/
def hash (string : List Nat) : Nat :=
  string.foldl (fun result byte => (result * BASE % MODULUS + byte) % MODULUS) 0

/-- `ByteRemover` from `contains.rs` (the mutable borrow of the rolling
hash is modelled by returning the updated value). -/
structure ByteRemover where
  rollingHash : Nat
  length : Nat
  index : Nat
  done : Bool

/-- `ByteRemover::write_str` for one chunk. Returns `none` for the panic
the source raises when `self.index` equals the chunk length: the guard is
`self.index > s.len()`, so the else branch indexes `s.as_bytes()[s.len()]`
out of bounds. The `+ MODULUS ... - removed` step wraps at `2^32`. -/
def ByteRemover.writeStr (br : ByteRemover) (s : List Nat) : Option ByteRemover :=
  if br.done then some br
  else if br.index > s.length then some { br with index := br.index - s.length }
  else match s.get? br.index with
    | some byte =>
      let removed := (List.range (br.length - 1)).foldl
        (fun h _ => h * BASE % U32 % MODULUS) byte
      some { br with
        rollingHash := (br.rollingHash + MODULUS % U32 + U32 - removed % U32) % U32,
        done := true }
    | none => none

/-- `write!(byte_remover, "{}", self.info.message())`: the chunks are
delivered in order; an out-of-bounds panic aborts the whole search. -/
def byteRemoverRun (chunks : List (List Nat)) (br : ByteRemover) : Option ByteRemover :=
  chunks.foldlM ByteRemover.writeStr br

/-- The comparison loop of `EqualityComparison::write_str`: consumes one
byte from the chunk and one expected byte per step, in the source's arm
order (`(Some, Some)` compares, `(_, None)` reports success, `(None, _)`
defers to the next chunk). Returns the verdict so far and the remaining
expected bytes. -/
def eqLoop : List Nat → List Nat → Option Bool × List Nat
  | _, [] => (some true, [])
  | [], r :: rs => (none, r :: rs)
  | l :: ls, r :: rs => if l = r then eqLoop ls rs else (some false, rs)

/-- `EqualityComparison` state. -/
structure EqComp where
  bytes : List Nat
  index : Nat
  result : Option Bool

/-- `EqualityComparison::write_str` for one chunk: skip `index` bytes
(deferring when the chunk ends strictly inside the skip), then compare. -/
def EqComp.writeStr (ec : EqComp) (s : List Nat) : EqComp :=
  if ec.result.isSome then ec
  else if s.length < ec.index then { ec with index := ec.index - s.length }
  else
    let r := eqLoop (s.drop ec.index) ec.bytes
    { bytes := r.2, index := 0, result := r.1 }

/-- `write!(equality_comparison, "{}", self.info.message())` over all
chunks, from the byte at `startIdx`; `none` (no verdict) means the message
ended before the expected bytes did. -/
def eqCompRun (chunks : List (List Nat)) (substring : List Nat) (startIdx : Nat) :
    Option Bool :=
  (chunks.foldl EqComp.writeStr
    { bytes := substring, index := startIdx, result := none }).result

/-- `RabinKarpSearch` from `contains.rs`. -/
structure RabinKarpSearch where
  string : List Nat
  hash : Nat
  length : Nat
  rollingHash : Nat
  rolled : Nat
  index : Nat
  found : Bool

/-- The initial fill of the rolling hash (`while self.rolled < self.length`
in `write_str`): consumes chunk bytes until the window is full, returning
the remaining bytes of the chunk. -/
def rkFill (st : RabinKarpSearch) : List Nat → RabinKarpSearch × List Nat
  | [] => (st, [])
  | b :: rest =>
    if st.rolled < st.length then
      rkFill { st with
        rollingHash := (st.rollingHash * BASE % MODULUS + b) % MODULUS,
        rolled := st.rolled + 1 } rest
    else (st, b :: rest)

/-- The main `loop` of `RabinKarpSearch::write_str`: check the current
window (running the equality comparison whenever the hashes agree), then
roll one byte — removing the byte at `index` via `ByteRemover` (whose
out-of-bounds panic propagates as `none`) and adding the next chunk byte. -/
def rkLoop (msg : List (List Nat)) : List Nat → RabinKarpSearch → Option RabinKarpSearch
  | bytes, st =>
    if st.hash = st.rollingHash ∧ eqCompRun msg st.string st.index = some true then
      some { st with found := true }
    else
      match bytes with
      | [] => some st
      | b :: rest =>
        match byteRemoverRun msg ⟨st.rollingHash, st.length, st.index, false⟩ with
        | none => none
        | some br =>
          rkLoop msg rest { st with
            rollingHash := (br.rollingHash * BASE % U32 % MODULUS + b) % U32 % MODULUS,
            index := st.index + 1 }

/-- `RabinKarpSearch::write_str` for one chunk. -/
def RabinKarpSearch.writeStr (msg : List (List Nat)) (st : RabinKarpSearch)
    (s : List Nat) : Option RabinKarpSearch :=
  if st.found then some st
  else
    let p := rkFill st s
    if p.1.rolled < p.1.length then some p.1
    else rkLoop msg p.2 p.1

/-- Modelled from the Rust standard library contract of `str::contains`
(the `as_str` fast path of `contains` delegates to it): containment as a
contiguous byte run. -/
def isInfixOfBytes (needle hay : List Nat) : Bool := decide (List.IsInfix needle hay)

/-- `contains` from `contains.rs`: `true` for the empty substring; the
standard library substring search on the `as_str` fast path; otherwise the
Rabin-Karp search over the chunks, `none` when the searcher panics. -/
def contains (info : PanicMessage) (substring : List Nat) : Option Bool :=
  if substring.isEmpty then some true
  else
    match info.asStr with
    | some messageStr => some (isInfixOfBytes substring messageStr)
    | none =>
      match info.chunks.foldlM (RabinKarpSearch.writeStr info.chunks)
          ⟨substring, hash substring, substring.length, 0, 0, 0, false⟩ with
      | none => none
      | some st => some st.found

/-- UTF-8 bytes of an ASCII string literal. -/
def strBytes (s : String) : List Nat := s.toList.map Char.toNat

/-- The `format_args!` message of the mismatch branch of the panic handler
(`runner.rs`): names both the actual panic message and the expected
substring. -/
def mismatchMessage (panicMessage : List Nat) (expected : List Nat) : List Nat :=
  strBytes "panic did not contain expected string\n     panic message: `"
    ++ panicMessage ++ strBytes "`\nexpected substring: `" ++ expected ++ strBytes "`"

/-- The in-flight-test branch of the panic handler (`runner.rs`):
classifies the panic against the declared expectation and produces the
outcome recorded by `store_outcome`; `none` when the matcher itself
panics. (For `ShouldPanic::No` the recorded `Display` data is the
formatted `PanicInfo`; the model carries the message bytes.) -/
def panicHandlerOutcome (sp : ShouldPanic) (info : PanicMessage) :
    Option (Outcome (List Nat)) :=
  match sp with
  | .No => some (.Failed info.chunks.flatten)
  | .Yes => some .Passed
  | .YesWithMessage message =>
    match contains info message with
    | none => none
    | some true => some .Passed
    | some false => some (.Failed (mismatchMessage info.chunks.flatten message))

/-- C5 (divergence witness): a must-panic test expecting substring `D`
whose panic message arrives as the chunks `AB`, `CD`. The message contains
`D`, so the claim requires `contains` to return `true` and the outcome to
be `Passed`; instead, when the sliding window crosses the chunk boundary
(`index` equal to the first chunk's length), `ByteRemover::write_str`
indexes `s.as_bytes()[s.len()]` out of bounds and panics inside the panic
handler — modelled as `none`. The matcher's edge contracts do hold:
an empty substring is always contained, and a substring longer than the
whole message is reported not contained without any out-of-bounds read. -/
theorem c5_matcher_panics_at_chunk_boundary :
    contains ⟨[[65, 66], [67, 68]], none⟩ [68] = none
    ∧ isInfixOfBytes [68] ([[65, 66], [67, 68]] : List (List Nat)).flatten = true
    ∧ panicHandlerOutcome (ShouldPanic.YesWithMessage [68]) ⟨[[65, 66], [67, 68]], none⟩
        = none
    ∧ contains ⟨[[65, 66], [67, 68]], none⟩ [] = some true
    ∧ contains ⟨[[65, 66]], none⟩ [65, 66, 67] = some false := by
  exact ⟨by decide, by decide, by decide, by decide, by decide⟩

/-! ## The module tree walker (`TestOutcomesModules` in `test.rs`) -/

/-- `TestOutcomesModules` iterator state (`test.rs`): the not-yet-visited
tests, the parent path, the in-progress `(modules, index)` walk, the
boundary prefix of the most recently completed walk, and the sentinel
flag. -/
structure TestOutcomesModules where
  tests : List TestCase
  parent : List String
  current : Option (List String × Nat)
  previous : Option (List String)
  returned_none : Bool
deriving DecidableEq, Repr

/-- The dedup check in `TestOutcomesModules::next`: whether `previous`
exists and starts with the candidate prefix (the yield is suppressed
exactly then). -/
def prevCovers (previous : Option (List String)) (candidate : List String) : Bool :=
  match previous with
  | some p => candidate.isPrefixOf p
  | none => false

/-- The `while let` loop of `TestOutcomesModules::next`: resumes the
current walk (or starts one on the next test); while `modules.len() >
index` and `modules[..index]` is a prefix of the parent, steps one level
deeper and yields `modules[..index + 1]` unless that candidate is a prefix
of `previous`; when the condition fails, records `modules[..index]` as the
new `previous` and moves to the next test. Returns the yielded prefix with
the updated `current`, `previous` and remaining tests, or `none` when the
tests are exhausted. -/
def modulesLoop (parent : List String) :
    Option (List String × Nat) → Option (List String) → List TestCase →
    Option (List String × (Option (List String × Nat) × Option (List String) × List TestCase))
  | some (m, i), previous, tests =>
    if h : i < m.length ∧ (m.take i).isPrefixOf parent then
      let candidate := m.take (i + 1)
      if prevCovers previous candidate
      then modulesLoop parent (some (m, i + 1)) previous tests
      else some (candidate, some (m, i + 1), previous, tests)
    else modulesLoop parent none (some (m.take i)) tests
  | none, _, [] => none
  | none, previous, t :: rest => modulesLoop parent (some (t.modules, 0)) previous rest
termination_by c _ ts =>
  2 * (ts.map (fun t => t.modules.length + 2)).sum
    + (match c with | some q => q.1.length - q.2 + 1 | none => 0)
decreasing_by
  all_goals first
    | omega
    | (simp only [List.map_cons, List.sum_cons]; omega)

/-- Every prefix the loop yields from a given state, in order. -/
def modulesCollect (parent : List String) :
    Option (List String × Nat) → Option (List String) → List TestCase → List (List String)
  | some (m, i), previous, tests =>
    if h : i < m.length ∧ (m.take i).isPrefixOf parent then
      let candidate := m.take (i + 1)
      if prevCovers previous candidate
      then modulesCollect parent (some (m, i + 1)) previous tests
      else candidate :: modulesCollect parent (some (m, i + 1)) previous tests
    else modulesCollect parent none (some (m.take i)) tests
  | none, _, [] => []
  | none, previous, t :: rest => modulesCollect parent (some (t.modules, 0)) previous rest
termination_by c _ ts =>
  2 * (ts.map (fun t => t.modules.length + 2)).sum
    + (match c with | some q => q.1.length - q.2 + 1 | none => 0)
decreasing_by
  all_goals first
    | omega
    | (simp only [List.map_cons, List.sum_cons]; omega)

/-- `TestOutcomesModules::next`: the sentinel `["--none--"]` on the first
call, then one step of the loop. -/
def TestOutcomesModules.next (st : TestOutcomesModules) :
    Option (List String × TestOutcomesModules) :=
  if !st.returned_none then some (["--none--"], { st with returned_none := true })
  else
    match modulesLoop st.parent st.current st.previous st.tests with
    | none => none
    | some (y, c, p, ts) =>
      some (y, { st with current := c, previous := p, tests := ts })

/-- `TestOutcomes::modules`: the fresh walker for a parent path. -/
def TestOutcomes.modules (t : TestOutcomes) (parent : List String) : TestOutcomesModules :=
  { tests := t.tests, parent := parent, current := none, previous := none,
    returned_none := false }

/-- `n` consecutive `next` calls, keeping only the state; `none` once the
iterator reports exhaustion. -/
def modulesNextIter : Nat → TestOutcomesModules → Option TestOutcomesModules
  | 0, st => some st
  | n + 1, st =>
    match st.next with
    | none => none
    | some (_, st₂) => modulesNextIter n st₂

/-- The prefixes a single test's walk contributes starting at level `i`,
and the boundary prefix it leaves behind: for each level whose prefix of
the test's path is itself a prefix of the parent, the candidate one
segment longer, omitting candidates that are prefixes of `prev`. -/
def testContribution (parent : List String) (prev : Option (List String))
    (m : List String) : Nat → List (List String) × List String
  | i =>
    if h : i < m.length ∧ (m.take i).isPrefixOf parent then
      let candidate := m.take (i + 1)
      let r := testContribution parent prev m (i + 1)
      (if prevCovers prev candidate then r.1 else candidate :: r.1, r.2)
    else ([], m.take i)
termination_by i => m.length - i + 1
decreasing_by omega

/-- The walker's yields described per test, threading the boundary prefix. -/
def modulesSpecAux (parent : List String) (prev : Option (List String)) :
    List TestCase → List (List String)
  | [] => []
  | t :: rest =>
    let r := testContribution parent prev t.modules 0
    r.1 ++ modulesSpecAux parent (some r.2) rest

/-- The full yield sequence of a fresh walker. -/
def modulesYields (parent : List String) (tests : List TestCase) : List (List String) :=
  ["--none--"] :: modulesCollect parent none none tests

/-- The yields still pending from an arbitrary walker state. -/
def pendingYields (st : TestOutcomesModules) : List (List String) :=
  (if st.returned_none then [] else [["--none--"]])
    ++ modulesCollect st.parent st.current st.previous st.tests

theorem collect_loop_rel (parent : List String) :
    ∀ (c : Option (List String × Nat)) (p : Option (List String)) (ts : List TestCase),
    (modulesLoop parent c p ts = none → modulesCollect parent c p ts = [])
    ∧ (∀ y c₂ p₂ ts₂, modulesLoop parent c p ts = some (y, c₂, p₂, ts₂) →
        modulesCollect parent c p ts = y :: modulesCollect parent c₂ p₂ ts₂) := by
  intro c p ts
  induction c, p, ts using modulesLoop.induct parent with
  | case1 m i previous tests h cand hc ih =>
    have hc₂ : prevCovers previous (m.take (i + 1)) = true := hc
    have hl : modulesLoop parent (some (m, i)) previous tests
        = modulesLoop parent (some (m, i + 1)) previous tests := by
      conv_lhs => rw [modulesLoop]
      simp [h, hc₂]
    have hcoll : modulesCollect parent (some (m, i)) previous tests
        = modulesCollect parent (some (m, i + 1)) previous tests := by
      conv_lhs => rw [modulesCollect]
      simp [h, hc₂]
    rw [hl, hcoll]
    exact ih
  | case2 m i previous tests h cand hc =>
    have hc₂ : prevCovers previous (m.take (i + 1)) = false := by
      simpa using hc
    have hl : modulesLoop parent (some (m, i)) previous tests
        = some (m.take (i + 1), some (m, i + 1), previous, tests) := by
      conv_lhs => rw [modulesLoop]
      simp [h, hc₂]
    have hcoll : modulesCollect parent (some (m, i)) previous tests
        = m.take (i + 1) :: modulesCollect parent (some (m, i + 1)) previous tests := by
      conv_lhs => rw [modulesCollect]
      simp [h, hc₂]
    constructor
    · intro hn; rw [hl] at hn; exact absurd hn (by simp)
    · intro y c₂ p₂ ts₂ hs
      rw [hl] at hs
      simp only [Option.some.injEq, Prod.mk.injEq] at hs
      obtain ⟨hy, hc₃, hp₂, hts₂⟩ := hs
      rw [hcoll, hy, hc₃, hp₂, hts₂]
  | case3 m i previous tests h ih =>
    have hl : modulesLoop parent (some (m, i)) previous tests
        = modulesLoop parent none (some (m.take i)) tests := by
      conv_lhs => rw [modulesLoop]
      rw [dif_neg h]
    have hcoll : modulesCollect parent (some (m, i)) previous tests
        = modulesCollect parent none (some (m.take i)) tests := by
      conv_lhs => rw [modulesCollect]
      rw [dif_neg h]
    rw [hl, hcoll]
    exact ih
  | case4 previous =>
    constructor
    · intro _; rw [modulesCollect]
    · intro y c₂ p₂ ts₂ hs
      rw [modulesLoop] at hs
      exact absurd hs (by simp)
  | case5 previous t rest ih =>
    have hl : modulesLoop parent none previous (t :: rest)
        = modulesLoop parent (some (t.modules, 0)) previous rest := by
      conv_lhs => rw [modulesLoop]
    have hcoll : modulesCollect parent none previous (t :: rest)
        = modulesCollect parent (some (t.modules, 0)) previous rest := by
      conv_lhs => rw [modulesCollect]
    rw [hl, hcoll]
    exact ih

theorem collect_some (parent : List String) (ts : List TestCase)
    (prev : Option (List String)) (m : List String) :
    ∀ i, modulesCollect parent (some (m, i)) prev ts
      = (testContribution parent prev m i).1
        ++ modulesCollect parent none (some ((testContribution parent prev m i).2)) ts := by
  intro i
  induction i using testContribution.induct parent prev m with
  | case1 i j h ih =>
    have h₂ : i < m.length ∧ (List.take i m).isPrefixOf parent = true := h
    have htc : testContribution parent prev m i
        = ((if prevCovers prev (m.take (i + 1))
            then (testContribution parent prev m (i + 1)).1
            else m.take (i + 1) :: (testContribution parent prev m (i + 1)).1),
           (testContribution parent prev m (i + 1)).2) := by
      conv_lhs => rw [testContribution]
      rw [dif_pos h₂]
    have hcoll : modulesCollect parent (some (m, i)) prev ts
        = if prevCovers prev (m.take (i + 1))
          then modulesCollect parent (some (m, i + 1)) prev ts
          else m.take (i + 1) :: modulesCollect parent (some (m, i + 1)) prev ts := by
      conv_lhs => rw [modulesCollect]
      rw [dif_pos h₂]
    rw [hcoll, htc]
    cases hc : prevCovers prev (m.take (i + 1)) with
    | true => simp [hc, ih]
    | false => simp [hc, ih]
  | case2 i j h =>
    have h₂ : ¬(i < m.length ∧ (List.take i m).isPrefixOf parent = true) := h
    have htc : testContribution parent prev m i = ([], m.take i) := by
      conv_lhs => rw [testContribution]
      rw [dif_neg h₂]
    have hcoll : modulesCollect parent (some (m, i)) prev ts
        = modulesCollect parent none (some (m.take i)) ts := by
      conv_lhs => rw [modulesCollect]
      rw [dif_neg h₂]
    rw [hcoll, htc]
    simp

theorem collect_none_spec (parent : List String) :
    ∀ (ts : List TestCase) (prev : Option (List String)),
    modulesCollect parent none prev ts = modulesSpecAux parent prev ts := by
  intro ts
  induction ts with
  | nil => intro prev; rw [modulesCollect, modulesSpecAux]
  | cons t rest ih =>
    intro prev
    rw [modulesCollect, modulesSpecAux, collect_some, ih]
theorem next_pendingYields (st : TestOutcomesModules) :
    (st.next = none → pendingYields st = [])
    ∧ (∀ y st₂, st.next = some (y, st₂) → pendingYields st = y :: pendingYields st₂) := by
  unfold TestOutcomesModules.next
  cases hr : st.returned_none with
  | false =>
    simp only [hr, Bool.not_false, if_true]
    constructor
    · intro h; exact absurd h (by simp)
    · intro y st₂ h
      simp only [Option.some.injEq, Prod.mk.injEq] at h
      obtain ⟨hy, hst⟩ := h
      rw [← hy, ← hst]
      simp [pendingYields, hr]
  | true =>
    simp only [hr, Bool.not_true, Bool.false_eq_true, if_false]
    cases hl : modulesLoop st.parent st.current st.previous st.tests with
    | none =>
      refine ⟨fun _ => ?_, fun y st₂ h => absurd h (by simp)⟩
      have := (collect_loop_rel st.parent st.current st.previous st.tests).1 hl
      simp [pendingYields, hr, this]
    | some q =>
      obtain ⟨y, c, p, ts⟩ := q
      refine ⟨fun h => absurd h (by simp), fun y₂ st₂ h => ?_⟩
      simp only [Option.some.injEq, Prod.mk.injEq] at h
      obtain ⟨hy, hst⟩ := h
      have hc := (collect_loop_rel st.parent st.current st.previous st.tests).2 y c p ts hl
      rw [← hy, ← hst]
      simp [pendingYields, hr, hc]

theorem modulesNextIter_terminates :
    ∀ (n : Nat) (st : TestOutcomesModules), (pendingYields st).length = n →
    modulesNextIter (n + 1) st = none := by
  intro n
  induction n with
  | zero =>
    intro st hlen
    have hnil : pendingYields st = [] := List.length_eq_zero.mp hlen
    cases hn : st.next with
    | none => simp [modulesNextIter, hn]
    | some q =>
      obtain ⟨y, st₂⟩ := q
      have := (next_pendingYields st).2 y st₂ hn
      rw [hnil] at this
      exact absurd this (by simp)
  | succ n ih =>
    intro st hlen
    cases hn : st.next with
    | none =>
      have := (next_pendingYields st).1 hn
      rw [this] at hlen
      simp at hlen
    | some q =>
      obtain ⟨y, st₂⟩ := q
      have hstep := (next_pendingYields st).2 y st₂ hn
      have hlen₂ : (pendingYields st₂).length = n := by
        rw [hstep] at hlen; simpa using hlen
      simp only [modulesNextIter, hn]
      exact ih st₂ hlen₂

theorem collect_mem (parent : List String) :
    ∀ (c : Option (List String × Nat)) (p : Option (List String)) (ts : List TestCase)
    (y : List String), y ∈ modulesCollect parent c p ts →
    (∃ m i, c = some (m, i) ∧ ∃ j, j < m.length ∧ y = m.take (j + 1))
    ∨ (∃ t ∈ ts, ∃ j, j < t.modules.length ∧ y = t.modules.take (j + 1)) := by
  intro c p ts
  induction c, p, ts using modulesCollect.induct parent with
  | case1 m i previous tests h cand hc ih =>
    intro y hy
    have hc₂ : prevCovers previous (m.take (i + 1)) = true := hc
    have hcoll : modulesCollect parent (some (m, i)) previous tests
        = modulesCollect parent (some (m, i + 1)) previous tests := by
      conv_lhs => rw [modulesCollect]
      simp [h, hc₂]
    rw [hcoll] at hy
    rcases ih y hy with ⟨m₂, i₂, heq, j, hj, hyv⟩ | hright
    · simp only [Option.some.injEq, Prod.mk.injEq] at heq
      obtain ⟨rfl, -⟩ := heq
      exact Or.inl ⟨m, i, rfl, j, hj, hyv⟩
    · exact Or.inr hright
  | case2 m i previous tests h cand hc ih =>
    intro y hy
    have hc₂ : prevCovers previous (m.take (i + 1)) = false := by simpa using hc
    have hcoll : modulesCollect parent (some (m, i)) previous tests
        = m.take (i + 1) :: modulesCollect parent (some (m, i + 1)) previous tests := by
      conv_lhs => rw [modulesCollect]
      simp [h, hc₂]
    rw [hcoll] at hy
    rcases List.mem_cons.mp hy with hy₁ | hy₂
    · exact Or.inl ⟨m, i, rfl, i, h.1, hy₁⟩
    · rcases ih y hy₂ with ⟨m₂, i₂, heq, j, hj, hyv⟩ | hright
      · simp only [Option.some.injEq, Prod.mk.injEq] at heq
        obtain ⟨rfl, -⟩ := heq
        exact Or.inl ⟨m, i, rfl, j, hj, hyv⟩
      · exact Or.inr hright
  | case3 m i previous tests h ih =>
    intro y hy
    have hcoll : modulesCollect parent (some (m, i)) previous tests
        = modulesCollect parent none (some (m.take i)) tests := by
      conv_lhs => rw [modulesCollect]
      rw [dif_neg h]
    rw [hcoll] at hy
    rcases ih y hy with ⟨m₂, i₂, heq, -⟩ | hright
    · exact absurd heq (by simp)
    · exact Or.inr hright
  | case4 previous =>
    intro y hy
    rw [modulesCollect] at hy
    exact absurd hy (by simp)
  | case5 previous t rest ih =>
    intro y hy
    have hcoll : modulesCollect parent none previous (t :: rest)
        = modulesCollect parent (some (t.modules, 0)) previous rest := by
      conv_lhs => rw [modulesCollect]
    rw [hcoll] at hy
    rcases ih y hy with ⟨m₂, i₂, heq, j, hj, hyv⟩ | ⟨t₂, ht₂, j, hj, hyv⟩
    · simp only [Option.some.injEq, Prod.mk.injEq] at heq
      obtain ⟨heq₁, -⟩ := heq
      exact Or.inr ⟨t, List.mem_cons_self t rest, j, heq₁ ▸ hj, heq₁ ▸ hyv⟩
    · exact Or.inr ⟨t₂, List.mem_cons_of_mem t ht₂, j, hj, hyv⟩

theorem sentinel_not_in_collect (parent : List String) (ts : List TestCase)
    (hts : ∀ t ∈ ts, t.modules.head? ≠ some "--none--") :
    ["--none--"] ∉ modulesCollect parent none none ts := by
  intro hmem
  rcases collect_mem parent none none ts _ hmem with ⟨m, i, heq, -⟩ | ⟨t, ht, j, hj, hy⟩
  · exact absurd heq (by simp)
  · refine hts t ht ?_
    cases hm : t.modules with
    | nil => rw [hm] at hj; simp at hj
    | cons a rest =>
      rw [hm] at hy
      simp only [List.take_succ_cons, List.cons.injEq] at hy
      rw [hy.1]
      simp
/-- C9 (amended): for every parent prefix and finite test sequence, the
walker's yield sequence is finite — iterating `next` one step past the
pending yields of any state returns `none` — and equals the sentinel
followed by, for each test in declaration order, the prefixes one segment
longer than each prefix of that test's module path that is itself a prefix
of the parent, omitting candidates that are prefixes of the boundary
prefix recorded for the most recently completed test (consecutive
deduplication only). -/
theorem c9_module_walker (parent : List String) (tests : List TestCase) :
    modulesYields parent tests = ["--none--"] :: modulesSpecAux parent none tests
    ∧ pendingYields ⟨tests, parent, none, none, false⟩ = modulesYields parent tests
    ∧ (∀ st : TestOutcomesModules,
        modulesNextIter ((pendingYields st).length + 1) st = none) := by
  refine ⟨?_, ?_, fun st => modulesNextIter_terminates _ st rfl⟩
  · rw [modulesYields, collect_none_spec]
  · rw [pendingYields, modulesYields]
    simp

/-- C9 counterexample: with tests declaring modules `a`, `b`, `a` (the two
`a` tests not contiguous) under the root parent, the walker yields the
prefix `a` twice, contradicting each-prefix-exactly-once; and under parent
`a`, a test in module `b::c` — which no module filter for `a` matches —
still has its top-level prefix `b` yielded. -/
theorem c9_counterexample :
    modulesCollect [] none none
        [⟨"a1", ["a"], Ignore.No, ShouldPanic.No⟩,
         ⟨"b1", ["b"], Ignore.No, ShouldPanic.No⟩,
         ⟨"a2", ["a"], Ignore.No, ShouldPanic.No⟩]
      = [["a"], ["b"], ["a"]]
    ∧ (modulesYields []
        [⟨"a1", ["a"], Ignore.No, ShouldPanic.No⟩,
         ⟨"b1", ["b"], Ignore.No, ShouldPanic.No⟩,
         ⟨"a2", ["a"], Ignore.No, ShouldPanic.No⟩]).count ["a"] = 2
    ∧ modulesYields ["a"] [⟨"b1", ["b", "c"], Ignore.No, ShouldPanic.No⟩]
      = [["--none--"], ["b"]]
    ∧ ModuleFilter.filter ⟨["a"]⟩ ⟨"b1", ["b", "c"], Ignore.No, ShouldPanic.No⟩ = false := by
  have h₁ : modulesCollect [] none none
      [⟨"a1", ["a"], Ignore.No, ShouldPanic.No⟩,
       ⟨"b1", ["b"], Ignore.No, ShouldPanic.No⟩,
       ⟨"a2", ["a"], Ignore.No, ShouldPanic.No⟩]
      = [["a"], ["b"], ["a"]] := by
    simp +decide [modulesCollect, prevCovers]
  have h₂ : modulesYields ["a"] [⟨"b1", ["b", "c"], Ignore.No, ShouldPanic.No⟩]
      = [["--none--"], ["b"]] := by
    simp +decide [modulesYields, modulesCollect, prevCovers]
  refine ⟨h₁, ?_, h₂, by decide⟩
  rw [modulesYields, h₁]
  rfl

/-- C10 (amended): the first element yielded by the walker is always the
sentinel `["--none--"]` — for every parent and test sequence, and from
every not-yet-started state — before any module prefix derived from the
tests; it is yielded exactly once provided no test case's module path
begins with the segment `--none--` (without that proviso the sentinel can
recur, see the counterexample). -/
theorem c10_sentinel_first (parent : List String) (tests : List TestCase)
    (st : TestOutcomesModules) :
    (modulesYields parent tests).head? = some ["--none--"]
    ∧ (st.returned_none = false →
        st.next = some (["--none--"], { st with returned_none := true }))
    ∧ ((∀ t ∈ tests, t.modules.head? ≠ some "--none--") →
        (modulesYields parent tests).count ["--none--"] = 1) := by
  refine ⟨rfl, fun h => ?_, fun hts => ?_⟩
  · unfold TestOutcomesModules.next
    rw [h]
    rfl
  · rw [modulesYields, List.count_cons]
    rw [List.count_eq_zero.mpr (sentinel_not_in_collect parent tests hts)]
    simp

theorem c10_sentinel_first_witness :
    (modulesYields ["x"] [tcA]).head? = some ["--none--"]
    ∧ (TestOutcomesModules.next ⟨[tcA], ["x"], none, none, false⟩
        = some (["--none--"], ⟨[tcA], ["x"], none, none, true⟩))
    ∧ (modulesYields ["x"] [tcA]).count ["--none--"] = 1 :=
  ⟨(c10_sentinel_first ["x"] [tcA] ⟨[tcA], ["x"], none, none, false⟩).1,
   (c10_sentinel_first ["x"] [tcA] ⟨[tcA], ["x"], none, none, false⟩).2.1 rfl,
   (c10_sentinel_first ["x"] [tcA] ⟨[tcA], ["x"], none, none, false⟩).2.2 (by decide)⟩

/-- C10 counterexample: a test whose module path is literally `--none--`
makes the walker yield the sentinel a second time, so the exactly-once
clause does not hold for every test sequence. -/
theorem c10_counterexample :
    modulesYields [] [⟨"t", ["--none--"], Ignore.No, ShouldPanic.No⟩]
      = [["--none--"], ["--none--"]]
    ∧ (modulesYields [] [⟨"t", ["--none--"], Ignore.No, ShouldPanic.No⟩]).count
        ["--none--"] = 2 := by
  have h : modulesYields [] [⟨"t", ["--none--"], Ignore.No, ShouldPanic.No⟩]
      = [["--none--"], ["--none--"]] := by
    simp +decide [modulesYields, modulesCollect, prevCovers]
  exact ⟨h, by rw [h]; rfl⟩
end GbaTest
